import Mathlib

/-!
Verification of the `clai` interactive chat client (`src/index.ts`).

The development shallowly embeds the parts of the program the claims are
about:

* the server-sent-event stream decoder of `FireworksClient.streamChat`
  (byte buffering, newline splitting, the `data: ` marker, the `[DONE]`
  token, JSON event payloads),
* the tool-call accumulator (`accumulatedToolCalls`, a JavaScript `Map`
  keyed by the stream index, modelled as an insertion-ordered association
  list, which is exactly the iteration order of a JS `Map`),
* the per-round conversation orchestration of `CLI.streamResponse`
  (assistant/tool message appends, tool dispatch, error handling), and
* the interactive command handling of `CLI.handleCommand` / `CLI.run`.

Transport text is modelled as `List Char` (what `TextDecoder` with
`stream: true` hands to the decoder; the decoder already makes byte-level
chunk boundaries inside one UTF-8 character invisible, so chunk
boundaries at character granularity are the faithful model).  External
runtime functions (`JSON.parse` composed with the `choices[0].delta`
extraction, and the web-search capability) are parameters of the
embedding: every theorem quantifies over them, so it holds for the real
runtime functions in particular.
-/

/-! ### JavaScript string primitives -/

/-- The ASCII whitespace characters removed by JavaScript `String.trim`
(JS also trims further Unicode space characters; the protocol lines the
claims are about only contain ASCII, and the general CLI theorem keeps
trimming explicit via a hypothesis). -/
def isJsSpace (c : Char) : Bool :=
  c = ' ' || c = '\t' || c = '\n' || c = '\r' || c = '\x0b' || c = '\x0c'

/-- JavaScript `String.trim` on a character list: drop whitespace from
both ends. -/
def jsTrim (l : List Char) : List Char :=
  ((l.dropWhile isJsSpace).reverse.dropWhile isJsSpace).reverse

/-- JavaScript `String.trim` on a `String`. -/
def jsTrimStr (s : String) : String :=
  (jsTrim s.data).asString

/-- JavaScript truthiness of a `string | undefined` value: `undefined`
and the empty string are falsy. -/
def jsTruthy : Option String → Bool
  | some s => !s.isEmpty
  | none => false

/-- JavaScript `input.startsWith("/")`: the first character is `/`. -/
def jsStartsWithSlash (s : String) : Bool :=
  match s.data with
  | c :: _ => c = '/'
  | [] => false

/-- JavaScript `buffer.split("\n")`: split at every newline, keeping
empty segments; the result always has at least one element (the text
after the last newline). -/
def splitNL : List Char → List (List Char)
  | [] => [[]]
  | c :: cs =>
    if c = '\n' then [] :: splitNL cs
    else (c :: (splitNL cs).headD []) :: (splitNL cs).tail

/-! ### Tool-call stream deltas and the accumulator

`src/index.ts` lines 185, 229-256: `accumulatedToolCalls` is a
`Map<number, Partial<ToolCall>>`.  In `Partial<ToolCall>` the `id` and
`function` fields may be `undefined`, but the fields inside `function`
are plain strings (`{name: string; arguments: string}`), exactly as
below.  A JS `Map` preserves insertion order: `set` of a new key appends
it, updating an existing key keeps its position, and `values()` iterates
in that order — which is what `lookupA`/`setA` implement on an
association list. -/

/-- The `function` part of a streamed tool-call delta
(`{name?, arguments?}`). -/
structure ToolCallFnDelta where
  name : Option String
  arguments : Option String
  deriving DecidableEq

/-- One streamed tool-call delta `{index, id?, function?}` from
`choices[0].delta.tool_calls`. -/
structure ToolCallDelta where
  index : Option Nat
  id : Option String
  function : Option ToolCallFnDelta
  deriving DecidableEq

/-- A parsed `choices[0].delta`: optional text content and optional
tool-call deltas. -/
structure ChoiceDelta where
  content : Option String
  tool_calls : Option (List ToolCallDelta)
  deriving DecidableEq

/-- The `function` field of an accumulated partial tool call: in the
TypeScript type `Partial<ToolCall>` its inner fields are non-optional
strings. -/
structure PartialFn where
  name : String
  arguments : String
  deriving DecidableEq

/-- An entry of `accumulatedToolCalls` (`Partial<ToolCall>`; the
constant `type: "function"` field is omitted). -/
structure PartialToolCall where
  id : Option String
  function : Option PartialFn
  deriving DecidableEq

/-- The `function` part of a completed `ToolCall`. -/
structure ToolCallFn where
  name : String
  arguments : String
  deriving DecidableEq

/-- A completed tool call (`interface ToolCall`; the constant
`type: "function"` field is omitted). -/
structure ToolCall where
  id : String
  function : ToolCallFn
  deriving DecidableEq

/-- `Map.get`: first (and only) entry with the given key. -/
def lookupA (m : List (Nat × PartialToolCall)) (i : Nat) : Option PartialToolCall :=
  match m with
  | [] => none
  | (k, v) :: rest => if k = i then some v else lookupA rest i

/-- `Map.set`: update an existing key in place, append a new key at the
end (JS `Map` insertion-order semantics). -/
def setA (m : List (Nat × PartialToolCall)) (i : Nat) (v : PartialToolCall) :
    List (Nat × PartialToolCall) :=
  match m with
  | [] => [(i, v)]
  | (k, w) :: rest => if k = i then (i, v) :: rest else (k, w) :: setA rest i v

/-- The field merge applied to the accumulated record for
`toolCallDelta.index` (`src/index.ts` lines 237-253): a truthy `id`
overwrites, a truthy `function.name` replaces the name and keeps the
accumulated arguments, a truthy `function.arguments` is concatenated
onto the accumulated arguments. -/
def mergeInto (rec : PartialToolCall) (d : ToolCallDelta) : PartialToolCall :=
  let tc1 := if jsTruthy d.id then { rec with id := d.id } else rec
  match d.function with
  | none => tc1
  | some f =>
    let tc2 :=
      if jsTruthy f.name then
        { tc1 with function := some { name := f.name.getD "",
                                      arguments := ((tc1.function).map PartialFn.arguments).getD "" } }
      else tc1
    if jsTruthy f.arguments then
      { tc2 with function := some { name := ((tc2.function).map PartialFn.name).getD "",
                                    arguments := (((tc2.function).map PartialFn.arguments).getD "")
                                                 ++ f.arguments.getD "" } }
    else tc2

/-- Processing of one tool-call delta (`src/index.ts` lines 230-254): a
delta without an `index` is ignored; a new index is initialized with
`{id: toolCallDelta.id, function: {name: "", arguments: ""}}`; then the
field merge is applied.  The unreachable `none` branch models the
non-null assertion `accumulatedToolCalls.get(index)!`. -/
def applyToolCallDelta (m : List (Nat × PartialToolCall)) (d : ToolCallDelta) :
    List (Nat × PartialToolCall) :=
  match d.index with
  | none => m
  | some index =>
    let m1 :=
      match lookupA m index with
      | none => setA m index { id := d.id, function := some { name := "", arguments := "" } }
      | some _ => m
    match lookupA m1 index with
    | none => m1
    | some tc => setA m1 index (mergeInto tc d)

/-- Materialization at stream end (`src/index.ts` lines 203-217 and
272-286): keep records whose `id`, `function`, `function.name` and
`function.arguments` are all defined.  In `Partial<ToolCall>` the two
inner fields are non-optional strings, so those two checks are the
always-true arms of the match. -/
def completeToolCalls (m : List (Nat × PartialToolCall)) : List ToolCall :=
  m.filterMap (fun p =>
    match p.2.id, p.2.function with
    | some id, some fn => some { id := id, function := { name := fn.name, arguments := fn.arguments } }
    | _, _ => none)

/-! ### The stream decoder -/

/-- An event yielded by `streamChat`: a text fragment (`yield content`)
or a completed tool-call batch (`yield { toolCalls }`). -/
inductive StreamEventRaw where
  | text (s : String)
  | toolCalls (tcs : List ToolCall)
  deriving DecidableEq

/-- The tool-call batch yield (`src/index.ts` lines 202-221 / 271-290):
only when the map is non-empty and the materialized batch is
non-empty. -/
def flushEvents (m : List (Nat × PartialToolCall)) : List StreamEventRaw :=
  if m.isEmpty then []
  else if (completeToolCalls m).isEmpty then []
  else [StreamEventRaw.toolCalls (completeToolCalls m)]

/-- The decoder state that outlives one line: the accumulator map and
whether the generator has returned (the `[DONE]` `return`; once set, no
further line produces anything, matching the generator having exited its
loop). -/
structure CoreState where
  acc : List (Nat × PartialToolCall)
  terminated : Bool
  deriving DecidableEq

/-- The full decoder state: the core plus the carried-over incomplete
trailing line (`buffer`). -/
structure DecState where
  core : CoreState
  buffer : List Char
  deriving DecidableEq

/-- The `data: ` line marker. -/
def dataMarker : List Char := ['d', 'a', 't', 'a', ':', ' ']

/-- The `[DONE]` termination payload. -/
def doneChars : List Char := ['[', 'D', 'O', 'N', 'E', ']']

/-- Processing of one complete line (`src/index.ts` lines 196-266),
parameterized by `parse`, the composition of `JSON.parse` with the
`json.choices?.[0]?.delta` extraction (`none` models the thrown-and-
caught parse exception; a payload without usable delta is
`some ⟨none, none⟩`, which behaves identically).  Blank lines and lines
without the `data: ` marker are skipped; `[DONE]` flushes the
accumulator and terminates; otherwise tool-call deltas are folded into
the accumulator and truthy content is yielded. -/
def processLine (parse : List Char → Option ChoiceDelta) (s : CoreState) (line : List Char) :
    CoreState × List StreamEventRaw :=
  if s.terminated then (s, [])
  else if jsTrim line = [] then (s, [])
  else if dataMarker.isPrefixOf line then
    let data := line.drop 6
    if data = doneChars then
      ({ s with terminated := true }, flushEvents s.acc)
    else
      match parse data with
      | none => (s, [])
      | some delta =>
        let acc1 :=
          match delta.tool_calls with
          | some ds => ds.foldl applyToolCallDelta s.acc
          | none => s.acc
        let evs :=
          match delta.content with
          | some c => if c.isEmpty then [] else [StreamEventRaw.text c]
          | none => []
        ({ s with acc := acc1 }, evs)
  else (s, [])

/-- The `for (const line of lines)` loop. -/
def processLines (parse : List Char → Option ChoiceDelta) (s : CoreState) :
    List (List Char) → CoreState × List StreamEventRaw
  | [] => (s, [])
  | l :: ls =>
    ((processLines parse (processLine parse s l).1 ls).1,
     (processLine parse s l).2 ++ (processLines parse (processLine parse s l).1 ls).2)

/-- Consuming one transport chunk (`src/index.ts` lines 192-267): append
to the buffer, split on newlines, keep the (possibly incomplete) last
segment as the new buffer, process the complete lines.  A terminated
state consumes nothing: after the `[DONE]` `return` the reader loop
never reads another chunk. -/
def runChunk (parse : List Char → Option ChoiceDelta) (s : DecState) (chunk : List Char) :
    DecState × List StreamEventRaw :=
  if s.core.terminated then (s, [])
  else
    ({ core := (processLines parse s.core (splitNL (s.buffer ++ chunk)).dropLast).1,
       buffer := (splitNL (s.buffer ++ chunk)).getLastD [] },
     (processLines parse s.core (splitNL (s.buffer ++ chunk)).dropLast).2)

/-- The `while (true)` reader loop over the whole chunk sequence. -/
def runChunks (parse : List Char → Option ChoiceDelta) (s : DecState) :
    List (List Char) → DecState × List StreamEventRaw
  | [] => (s, [])
  | c :: cs =>
    ((runChunks parse (runChunk parse s c).1 cs).1,
     (runChunk parse s c).2 ++ (runChunks parse (runChunk parse s c).1 cs).2)

/-- The end-of-stream flush (`src/index.ts` lines 270-290), reached only
when the stream ended without `[DONE]` (otherwise the generator already
returned). -/
def finalFlush (s : DecState) : List StreamEventRaw :=
  if s.core.terminated then [] else flushEvents s.core.acc

/-- Decoding from an arbitrary state: consume every chunk, then flush. -/
def decodeFrom (parse : List Char → Option ChoiceDelta) (s : DecState)
    (chunks : List (List Char)) : List StreamEventRaw :=
  (runChunks parse s chunks).2 ++ finalFlush (runChunks parse s chunks).1

/-- The initial decoder state (`buffer = ""`, empty map). -/
def initDecState : DecState :=
  { core := { acc := [], terminated := false }, buffer := [] }

/-- The full event sequence `streamChat` yields for a successfully
opened stream delivered as `chunks`. -/
def streamChatEvents (parse : List Char → Option ChoiceDelta)
    (chunks : List (List Char)) : List StreamEventRaw :=
  decodeFrom parse initDecState chunks

/-! ### The transport phase of `streamChat` -/

/-- The part of the `fetch` response `streamChat` inspects: `ok`,
`status`, `statusText`, the error body text, and the optional readable
body delivered as chunks. -/
structure FetchResponse where
  ok : Bool
  status : Nat
  statusText : String
  errorText : String
  body : Option (List (List Char))
  deriving DecidableEq

/-- The errors `streamChat` throws before yielding anything:
`API Error: <status> <statusText>\n<body>` for a non-success status
(`src/index.ts` lines 173-176), and `No response body` when the body is
missing (lines 179-181). -/
inductive StreamErr where
  | apiError (status : Nat) (statusText : String) (errorBody : String)
  | noBody
  deriving DecidableEq

/-- `streamChat` up to and including the decode: an error before any
event, or the decoded event list. -/
def streamChatModel (parse : List Char → Option ChoiceDelta) (r : FetchResponse) :
    Except StreamErr (List StreamEventRaw) :=
  if r.ok then
    match r.body with
    | none => Except.error StreamErr.noBody
    | some chunks => Except.ok (streamChatEvents parse chunks)
  else Except.error (StreamErr.apiError r.status r.statusText r.errorText)

/-! ### Messages and the orchestrator round -/

/-- Message roles. -/
inductive Role where
  | user
  | assistant
  | system
  | tool
  deriving DecidableEq

/-- A history message (`interface Message`). -/
structure Message where
  role : Role
  content : Option String
  tool_calls : Option (List ToolCall)
  tool_call_id : Option String
  name : Option String
  deriving DecidableEq

/-- `ChatHistory.addMessage` (`src/index.ts` lines 300-312) builds the
message it pushes: `tool_calls` is attached when the argument was passed
(any JS array is truthy), `tool_call_id` and `name` only when the passed
string is truthy (an empty id or name is silently dropped). -/
def addMessage (role : Role) (content : Option String)
    (toolCalls : Option (List ToolCall)) (toolCallId : Option String)
    (name : Option String) : Message :=
  { role := role
    content := content
    tool_calls := toolCalls
    tool_call_id := match toolCallId with
      | some i => if i.isEmpty then none else some i
      | none => none
    name := match name with
      | some n => if n.isEmpty then none else some n
      | none => none }

/-- The shape of `JSON.parse(toolCall.function.arguments)` at the
granularity `args.query` distinguishes: JSON `null` (property access
throws a `TypeError`), an object with its `query` field (a missing or
non-string field is `none`), or any other JSON value (property access
yields `undefined`). -/
inductive JsonVal where
  | jnull
  | jobj (query : Option String)
  | jprim
  deriving DecidableEq

/-- The parsed argument value including the fallback
(`src/index.ts` lines 382-387): a parse failure substitutes
`{query: <raw argument text>}`. -/
def argsVal (parseJson : String → Option JsonVal) (tc : ToolCall) : JsonVal :=
  match parseJson tc.function.arguments with
  | some v => v
  | none => JsonVal.jobj (some tc.function.arguments)

/-- `args.query` on a parsed value: reading a property of `null` throws
(`Except.error`), otherwise the query field or `undefined`. -/
def queryOf : JsonVal → Except Unit (Option String)
  | JsonVal.jnull => Except.error ()
  | JsonVal.jobj q => Except.ok q
  | JsonVal.jprim => Except.ok none

/-- One tool-call execution (`src/index.ts` lines 380-398): dispatch by
name; `web_search` reads `args.query` (which can throw) and calls the
search capability; any other name produces the literal unknown-tool
string without touching `args`.  The success value is the `tool` message
appended for the call. -/
def execToolCall (parseJson : String → Option JsonVal) (search : Option String → String)
    (tc : ToolCall) : Except Unit Message :=
  if tc.function.name = "web_search" then
    match queryOf (argsVal parseJson tc) with
    | Except.error _ => Except.error ()
    | Except.ok q =>
      Except.ok (addMessage Role.tool (some (search q)) none (some tc.id) (some tc.function.name))
  else
    Except.ok (addMessage Role.tool (some ("Unknown tool: " ++ tc.function.name)) none
      (some tc.id) (some tc.function.name))

/-- The `for (const toolCall of toolCalls)` execution loop: on a thrown
`TypeError` the loop aborts; the error payload carries the tool messages
already appended before the abort. -/
def executeToolCalls (parseJson : String → Option JsonVal) (search : Option String → String) :
    List ToolCall → Except (List Message) (List Message)
  | [] => Except.ok []
  | tc :: rest =>
    match execToolCall parseJson search tc with
    | Except.error _ => Except.error []
    | Except.ok msg =>
      match executeToolCalls parseJson search rest with
      | Except.error ms => Except.error (msg :: ms)
      | Except.ok ms => Except.ok (msg :: ms)

/-- `toolCalls`/`hasToolCalls` at stream end (`src/index.ts` lines
363-367): each batch event overwrites the variable, so the last batch
wins; `none` means no batch event was seen (`hasToolCalls` false). -/
def lastToolCallBatch (events : List StreamEventRaw) : Option (List ToolCall) :=
  events.foldl (fun acc e =>
    match e with
    | StreamEventRaw.toolCalls tcs => some tcs
    | StreamEventRaw.text _ => acc) none

/-- `fullResponse` at stream end: the concatenation of the yielded text
fragments in order. -/
def roundText (events : List StreamEventRaw) : String :=
  String.join (events.filterMap (fun e =>
    match e with
    | StreamEventRaw.text s => some s
    | StreamEventRaw.toolCalls _ => none))

/-- `fullResponse || null`. -/
def jsOrNull (s : String) : Option String :=
  if s.isEmpty then none else some s

/-- The errors caught at the round boundary: a failed request (the
thrown `API Error`/`No response body`), or the `TypeError` thrown by
`args.query` when the parsed arguments are `null`. -/
inductive RoundError where
  | requestFailed (e : StreamErr)
  | toolArgsNull
  deriving DecidableEq

/-- How one `streamResponse` round ends: normally (state `Idle`), with a
follow-up request still to run (tool calls were executed), or aborted by
a caught error (reported to the user; the session keeps running). -/
inductive RoundOutcome where
  | finished
  | continueRound
  | aborted (e : RoundError)
  deriving DecidableEq

/-- One round of `CLI.streamResponse` (`src/index.ts` lines 349-420)
over the event sequence the completion client produced: on a thrown
request error nothing is appended; otherwise the text fragments are
accumulated, and if a non-empty tool-call batch was recorded the
assistant message carrying text and calls is appended first, then the
tool-result messages, and a follow-up round is requested; with no tool
calls a single assistant message is appended. -/
def runRound (parseJson : String → Option JsonVal) (search : Option String → String)
    (history : List Message) (resp : Except StreamErr (List StreamEventRaw)) :
    List Message × RoundOutcome :=
  match resp with
  | Except.error e => (history, RoundOutcome.aborted (RoundError.requestFailed e))
  | Except.ok events =>
    let calls := (lastToolCallBatch events).getD []
    if (lastToolCallBatch events).isSome && !calls.isEmpty then
      let assistantMsg :=
        addMessage Role.assistant (jsOrNull (roundText events)) (some calls) none none
      match executeToolCalls parseJson search calls with
      | Except.ok ms => (history ++ assistantMsg :: ms, RoundOutcome.continueRound)
      | Except.error ms => (history ++ assistantMsg :: ms, RoundOutcome.aborted RoundError.toolArgsNull)
    else
      (history ++ [addMessage Role.assistant (jsOrNull (roundText events))
        (if calls.isEmpty then none else some calls) none none], RoundOutcome.finished)

/-- The tool message a successful execution of `tc` appends, in closed
form (used to state the orchestration theorems). -/
def roundToolMsg (parseJson : String → Option JsonVal) (search : Option String → String)
    (tc : ToolCall) : Message :=
  addMessage Role.tool
    (some (if tc.function.name = "web_search"
           then search (match argsVal parseJson tc with
                        | JsonVal.jobj q => q
                        | _ => none)
           else "Unknown tool: " ++ tc.function.name))
    none (some tc.id) (some tc.function.name)

/-! ### Closed forms used to state the accumulator theorems -/

/-- The (truthy) id contribution of one delta: the id value when it is
present and non-empty. -/
def idDeltaOf (d : ToolCallDelta) : Option String :=
  match d.id with
  | some s => if s.isEmpty then none else some s
  | none => none

/-- The (truthy) name contribution of one delta. -/
def nameDeltaOf (d : ToolCallDelta) : Option String :=
  match d.function with
  | some f =>
    match f.name with
    | some s => if s.isEmpty then none else some s
    | none => none
  | none => none

/-- The (truthy) argument-fragment contribution of one delta. -/
def argDeltaOf (d : ToolCallDelta) : Option String :=
  match d.function with
  | some f =>
    match f.arguments with
    | some s => if s.isEmpty then none else some s
    | none => none
  | none => none

/-- All non-empty id deltas, in arrival order. -/
def idDeltasOf (ds : List ToolCallDelta) : List String := ds.filterMap idDeltaOf

/-- All non-empty name deltas, in arrival order. -/
def nameDeltasOf (ds : List ToolCallDelta) : List String := ds.filterMap nameDeltaOf

/-- All non-empty argument deltas, in arrival order. -/
def argDeltasOf (ds : List ToolCallDelta) : List String := ds.filterMap argDeltaOf

/-- The record a fresh index is initialized with
(`{id: toolCallDelta.id, function: {name: "", arguments: ""}}`). -/
def initRec (d : ToolCallDelta) : PartialToolCall :=
  { id := d.id, function := some { name := "", arguments := "" } }

/-- First-appearance order of indices: how one delta extends the key
order of the accumulator map (spec-side, for the amended ordering
claim). -/
def keyOrderStep (ks : List Nat) (d : ToolCallDelta) : List Nat :=
  match d.index with
  | none => ks
  | some i => if i ∈ ks then ks else ks ++ [i]

/-! ### Concrete instances used by witnesses and counterexamples -/

/-- A parse function recognizing nothing (any `JSON.parse` behaves like
this on payloads it rejects). -/
def parseNoneW : List Char → Option ChoiceDelta := fun _ => none

/-- A parse function with two known payloads: `x` carries content
`"hi"`, `e` carries empty content. -/
def parseHiW : List Char → Option ChoiceDelta := fun l =>
  if l = ['x'] then some { content := some "hi", tool_calls := none }
  else if l = ['e'] then some { content := some "", tool_calls := none }
  else none

/-- `JSON.parse` restricted to the argument payloads in play: the
literal `null` parses to JSON null (as real `JSON.parse` does),
everything else fails to parse. -/
def pjNullW : String → Option JsonVal := fun s =>
  if s = "null" then some JsonVal.jnull else none

/-- `JSON.parse` knowing one well-formed argument object. -/
def pjObjW : String → Option JsonVal := fun s =>
  if s = "\x7b\"query\":\"rain\"\x7d" then some (JsonVal.jobj (some "rain")) else none

/-- A concrete search capability. -/
def searchW : Option String → String := fun q =>
  match q with
  | some s => "searched:" ++ s
  | none => "searched:undefined"

/-- A `web_search` call whose argument payload is the JSON literal
`null`. -/
def tcNullW : ToolCall := { id := "id1", function := { name := "web_search", arguments := "null" } }

/-- A `web_search` call with a well-formed argument object. -/
def tcObjW : ToolCall :=
  { id := "id2", function := { name := "web_search", arguments := "\x7b\"query\":\"rain\"\x7d" } }

/-- An event sequence ending in a batch holding the null-argument
call. -/
def evNullW : List StreamEventRaw :=
  [StreamEventRaw.text "hi", StreamEventRaw.toolCalls [tcNullW]]

/-- An event sequence ending in a batch holding the well-formed call. -/
def evObjW : List StreamEventRaw :=
  [StreamEventRaw.text "hi", StreamEventRaw.toolCalls [tcObjW]]

/-- A failed transport response: HTTP 500 with body `rate limited`. -/
def r500W : FetchResponse :=
  { ok := false, status := 500, statusText := "Internal Server Error",
    errorText := "rate limited", body := none }

/-- Deltas for one index that never carry a name. -/
def dsNoNameW : List ToolCallDelta :=
  [{ index := some 0, id := some "call_1",
     function := some { name := none, arguments := some "\x7b\x7d" } }]

/-- Two complete single-delta tool calls, index 1 arriving before
index 0. -/
def dsOrderW : List ToolCallDelta :=
  [{ index := some 1, id := some "b",
     function := some { name := some "web_search", arguments := some "\x7b\x7d" } },
   { index := some 0, id := some "a",
     function := some { name := some "web_search", arguments := some "\x7b\x7d" } }]

/-- The spec's three-fragment example: the first delta of a tool call at
index 0. -/
def dSpec0W : ToolCallDelta :=
  { index := some 0, id := some "call_1",
    function := some { name := some "web_search", arguments := some "\x7b\"query\":" } }

/-- The second fragment of the spec's example. -/
def dSpec1W : ToolCallDelta :=
  { index := some 0, id := none, function := some { name := none, arguments := some "\"rain in\"" } }

/-- The third fragment of the spec's example. -/
def dSpec2W : ToolCallDelta :=
  { index := some 0, id := none, function := some { name := none, arguments := some "\x7d" } }

/-! ### The CLI command loop -/

/-- What the `run` loop does after one line of input. -/
inductive StepAction where
  | exit
  | skip
  | chat
  deriving DecidableEq

/-- `CLI.handleCommand` (`src/index.ts` lines 422-445): exact,
case-sensitive matches on the trimmed input; `/exit`/`/quit` signal
exit, `/clear` empties the history, `/help` only prints; everything else
falls through. -/
def handleCommand (history : List Message) (input : String) : List Message × Bool :=
  let trimmed := jsTrimStr input
  if trimmed = "/exit" || trimmed = "/quit" then (history, true)
  else if trimmed = "/clear" then ([], false)
  else if trimmed = "/help" then (history, false)
  else (history, false)

/-- One iteration of the `CLI.run` loop (`src/index.ts` lines 455-478)
on the raw readline answer: `getUserInput` trims it; empty input is
skipped; then `handleCommand`; any remaining input starting with `/` is
skipped; otherwise the input is appended as a `user` message and a
completion round starts. -/
def runStep (history : List Message) (answer : String) : List Message × StepAction :=
  let input := jsTrimStr answer
  if input.isEmpty then (history, StepAction.skip)
  else
    let hc := handleCommand history input
    if hc.2 then (hc.1, StepAction.exit)
    else if jsStartsWithSlash input then (hc.1, StepAction.skip)
    else (hc.1 ++ [addMessage Role.user (some input) none none none], StepAction.chat)

/-! ## Theorems -/

/-! ### C9 — interactive command handling -/

/-- C9 (counterexample): the claim says every non-empty input other
than the four commands is appended to history as a user message, but
`run` skips every input starting with `/` (`src/index.ts` line 469):
on `/foo` nothing is appended and no round starts. -/
theorem unknown_slash_input_ignored_counterexample :
    runStep [] "/foo" = ([], StepAction.skip) ∧
    runStep [] "/foo" ≠ ([addMessage Role.user (some "/foo") none none none], StepAction.chat) :=
  ⟨by decide, by decide⟩

/-- C9 (amended): commands are matched exactly and case-sensitively:
`/exit` and `/quit` end the session, `/clear` wipes history to length 0
(also a no-op without error when already empty, the `h = []` instance),
`/help` only prints; an unmatched input starting with `/` (such as the
case-mismatched `/EXIT`) is silently ignored; and every non-empty input
NOT starting with `/` is appended as a user message and starts a
completion round. -/
theorem command_handling_behavior :
    (∀ h : List Message, runStep h "/exit" = (h, StepAction.exit)) ∧
    (∀ h : List Message, runStep h "/quit" = (h, StepAction.exit)) ∧
    (∀ h : List Message, runStep h "/clear" = ([], StepAction.skip)) ∧
    (∀ h : List Message, runStep h "/help" = (h, StepAction.skip)) ∧
    (∀ h : List Message, runStep h "/EXIT" = (h, StepAction.skip)) ∧
    (∀ (h : List Message) (input : String),
      jsTrimStr input = input → input ≠ "" → jsStartsWithSlash input = false →
      runStep h input = (h ++ [addMessage Role.user (some input) none none none],
        StepAction.chat)) := by
  refine ⟨fun h => rfl, fun h => rfl, fun h => rfl, fun h => rfl, fun h => rfl, ?_⟩
  intro h input htrim hne hslash
  have hcmd : ∀ cmd : String, jsStartsWithSlash cmd = true → ¬ input = cmd := by
    intro cmd hc e
    subst e
    rw [hslash] at hc
    exact Bool.noConfusion hc
  have hemp : input.isEmpty = false := by
    cases he : input.isEmpty
    · rfl
    · exact absurd ((String.isEmpty_iff input).mp he) hne
  have h1 := hcmd "/exit" (by decide)
  have h2 := hcmd "/quit" (by decide)
  have h3 := hcmd "/clear" (by decide)
  have h4 := hcmd "/help" (by decide)
  simp only [runStep, htrim, hemp, handleCommand, hslash, Bool.false_eq_true, if_false,
    decide_eq_true_eq, h1, h2, h3, h4, Bool.or_self, Bool.or_false]

/-- C9 (witness): the conversation-text case of
`command_handling_behavior` at the input `hello`. -/
theorem command_handling_behavior_witness :
    jsTrimStr "hello" = "hello" ∧ "hello" ≠ "" ∧ jsStartsWithSlash "hello" = false ∧
    runStep [] "hello" = ([addMessage Role.user (some "hello") none none none],
      StepAction.chat) :=
  ⟨by decide, by decide, by decide,
   command_handling_behavior.2.2.2.2.2 [] "hello" (by decide) (by decide) (by decide)⟩

/-! ### C6 — non-success transport status -/

/-- C6: whenever the transport reports a non-success status,
`streamChat` throws an error carrying the status code and the raw error
body before yielding any event (the model returns `Except.error`, so
there is no event list at all), and the `streamResponse` round catches
it: the turn aborts with that error reported and the history is
unchanged from before the failed request; the run loop then continues
to await the next input. -/
theorem request_failure_aborts_turn_history_unchanged
    (parse : List Char → Option ChoiceDelta) (pj : String → Option JsonVal)
    (search : Option String → String) (history : List Message) (r : FetchResponse)
    (hfail : r.ok = false) :
    streamChatModel parse r =
      Except.error (StreamErr.apiError r.status r.statusText r.errorText) ∧
    runRound pj search history (streamChatModel parse r) =
      (history, RoundOutcome.aborted (RoundError.requestFailed
        (StreamErr.apiError r.status r.statusText r.errorText))) := by
  have h1 : streamChatModel parse r =
      Except.error (StreamErr.apiError r.status r.statusText r.errorText) := by
    simp [streamChatModel, hfail]
  exact ⟨h1, by rw [h1]; rfl⟩

/-- C6 (witness): the spec's scenario, HTTP 500 with body
`rate limited`: the turn aborts carrying `500` and `rate limited`, the
history stays empty. -/
theorem request_failure_aborts_turn_history_unchanged_witness :
    r500W.ok = false ∧
    streamChatModel parseNoneW r500W =
      Except.error (StreamErr.apiError 500 "Internal Server Error" "rate limited") ∧
    runRound pjNullW searchW [] (streamChatModel parseNoneW r500W) =
      ([], RoundOutcome.aborted (RoundError.requestFailed
        (StreamErr.apiError 500 "Internal Server Error" "rate limited"))) :=
  ⟨rfl,
   (request_failure_aborts_turn_history_unchanged parseNoneW pjNullW searchW [] r500W rfl).1,
   (request_failure_aborts_turn_history_unchanged parseNoneW pjNullW searchW [] r500W rfl).2⟩

/-! ### C7 / C8 — tool execution and the orchestration round

Helper lemmas shared by the two claims: when no `web_search` call's
argument payload parses to JSON `null`, every execution succeeds and
produces its `tool` message. -/

/-- A tool call whose execution cannot throw produces exactly its round
tool message. -/
theorem execToolCall_ok_of_safe (pj : String → Option JsonVal)
    (search : Option String → String) (tc : ToolCall)
    (hsafe : tc.function.name = "web_search" → argsVal pj tc ≠ JsonVal.jnull) :
    execToolCall pj search tc = Except.ok (roundToolMsg pj search tc) := by
  by_cases hn : tc.function.name = "web_search"
  · cases hv : argsVal pj tc with
    | jnull => exact absurd hv (hsafe hn)
    | jobj q => simp [execToolCall, roundToolMsg, hn, hv, queryOf]
    | jprim => simp [execToolCall, roundToolMsg, hn, hv, queryOf]
  · simp [execToolCall, roundToolMsg, hn]

/-- The execution loop over a safe batch succeeds with one tool message
per call, in order. -/
theorem executeToolCalls_ok_of_safe (pj : String → Option JsonVal)
    (search : Option String → String) (calls : List ToolCall)
    (hsafe : ∀ tc ∈ calls, tc.function.name = "web_search" → argsVal pj tc ≠ JsonVal.jnull) :
    executeToolCalls pj search calls = Except.ok (calls.map (roundToolMsg pj search)) := by
  induction calls with
  | nil => rfl
  | cons tc rest ih =>
    have h1 := execToolCall_ok_of_safe pj search tc (hsafe tc (List.mem_cons_self tc rest))
    have h2 := ih (fun t ht => hsafe t (List.mem_cons_of_mem tc ht))
    simp [executeToolCalls, h1, h2]

/-- C7 (counterexample): a round whose stream ends with a recorded
batch holding one `web_search` call with argument payload `null`
(`JSON.parse` succeeds on `null`, then `args.query` throws a
`TypeError` outside the fallback `try`): the round appends the
assistant message but ZERO tool messages and aborts — not "exactly one
tool message per recorded call". -/
theorem tool_round_null_args_counterexample :
    lastToolCallBatch evNullW = some [tcNullW] ∧ [tcNullW] ≠ [] ∧
    runRound pjNullW searchW [] (Except.ok evNullW) =
      ([addMessage Role.assistant (some "hi") (some [tcNullW]) none none],
       RoundOutcome.aborted RoundError.toolArgsNull) :=
  ⟨by decide, by decide, by decide⟩

/-- C7 (amended): for every round whose stream ends with a recorded
non-empty tool-call batch, PROVIDED no `web_search` call's argument
payload parses to JSON `null` (otherwise the `args.query` property
access throws and aborts the turn), the orchestrator appends exactly
one assistant message carrying the accumulated text (absent when empty)
and the tool calls, strictly before the tool-result messages, and then
exactly one `tool` message per recorded call in original order, each
referencing that call's id and capability name; only afterwards does
the follow-up round (which appends any subsequent assistant text) run. -/
theorem tool_round_message_order (pj : String → Option JsonVal)
    (search : Option String → String) (history : List Message)
    (events : List StreamEventRaw) (calls : List ToolCall)
    (hbatch : lastToolCallBatch events = some calls) (hne : calls ≠ [])
    (hsafe : ∀ tc ∈ calls, tc.function.name = "web_search" → argsVal pj tc ≠ JsonVal.jnull) :
    runRound pj search history (Except.ok events) =
      (history ++ addMessage Role.assistant (jsOrNull (roundText events)) (some calls) none none
        :: calls.map (roundToolMsg pj search),
       RoundOutcome.continueRound) := by
  have hnem : calls.isEmpty = false := by
    cases calls with
    | nil => exact absurd rfl hne
    | cons a t => rfl
  simp [runRound, hbatch, hnem, executeToolCalls_ok_of_safe pj search calls hsafe]

/-- C7 (witness): a stream with text `hi` and one well-formed
`web_search` call appends the assistant message (text + call) followed
by the single tool message and requests the follow-up round. -/
theorem tool_round_message_order_witness :
    lastToolCallBatch evObjW = some [tcObjW] ∧
    runRound pjObjW searchW [] (Except.ok evObjW) =
      ([addMessage Role.assistant (some "hi") (some [tcObjW]) none none,
        addMessage Role.tool (some "searched:rain") none (some "id2") (some "web_search")],
       RoundOutcome.continueRound) := by
  refine ⟨by decide, ?_⟩
  have h := tool_round_message_order pjObjW searchW [] evObjW [tcObjW]
    (by decide) (by decide) (by decide)
  rw [h]
  decide

/-- C8 (counterexample): tool execution CAN abort the turn: on a
`web_search` call whose argument payload is the JSON literal `null`,
`JSON.parse` succeeds (so the raw-text fallback does not fire) and the
subsequent `args.query` property access throws, aborting the loop with
no tool message appended. -/
theorem tool_exec_null_args_aborts_counterexample :
    pjNullW "null" = some JsonVal.jnull ∧
    executeToolCalls pjNullW searchW [tcNullW] = Except.error [] :=
  ⟨by decide, rfl⟩

/-- C8 (amended): for every recorded tool call, if its argument payload
fails to parse, the raw argument text is substituted as the capability's
sole input (the `query` field), and if the call's name matches no known
capability the result is the literal unknown-tool string (the argument
value is never read in that branch); in both cases a tool message with
that result is appended and the turn continues — and more generally the
whole batch executes to one tool message per call PROVIDED no
`web_search` call's payload parses to JSON `null` (that single case
throws and aborts the turn, see the counterexample). -/
theorem tool_exec_fallbacks :
    (∀ (pj : String → Option JsonVal) (search : Option String → String) (tc : ToolCall),
      pj tc.function.arguments = none → tc.function.name = "web_search" →
      execToolCall pj search tc =
        Except.ok (addMessage Role.tool (some (search (some tc.function.arguments))) none
          (some tc.id) (some tc.function.name))) ∧
    (∀ (pj : String → Option JsonVal) (search : Option String → String) (tc : ToolCall),
      tc.function.name ≠ "web_search" →
      execToolCall pj search tc =
        Except.ok (addMessage Role.tool (some ("Unknown tool: " ++ tc.function.name)) none
          (some tc.id) (some tc.function.name))) ∧
    (∀ (pj : String → Option JsonVal) (search : Option String → String)
      (calls : List ToolCall),
      (∀ tc ∈ calls, tc.function.name = "web_search" → argsVal pj tc ≠ JsonVal.jnull) →
      executeToolCalls pj search calls = Except.ok (calls.map (roundToolMsg pj search))) := by
  refine ⟨?_, ?_, ?_⟩
  · intro pj search tc hparse hname
    simp [execToolCall, argsVal, hparse, hname, queryOf]
  · intro pj search tc hname
    simp [execToolCall, hname]
  · exact executeToolCalls_ok_of_safe

/-- C8 (witness): the raw-text fallback on an unparsable payload and
the unknown-tool result, at concrete calls. -/
theorem tool_exec_fallbacks_witness :
    pjNullW "not json" = none ∧
    execToolCall pjNullW searchW { id := "id9", function := { name := "web_search", arguments := "not json" } } =
      Except.ok (addMessage Role.tool (some (searchW (some "not json"))) none
        (some "id9") (some "web_search")) ∧
    execToolCall pjNullW searchW { id := "id3", function := { name := "mystery", arguments := "null" } } =
      Except.ok (addMessage Role.tool (some ("Unknown tool: " ++ "mystery")) none
        (some "id3") (some "mystery")) := by
  refine ⟨by decide, ?_, ?_⟩
  · exact tool_exec_fallbacks.1 pjNullW searchW _ (by decide) rfl
  · exact tool_exec_fallbacks.2.1 pjNullW searchW _ (by decide)

/-! ### C2 / C3 / C4 — the tool-call accumulator

Supporting lemmas on the insertion-ordered map and the per-delta
merge. -/

/-- Looking up a key right after setting it yields the stored record. -/
theorem lookupA_setA_self (m : List (Nat × PartialToolCall)) (i : Nat) (v : PartialToolCall) :
    lookupA (setA m i v) i = some v := by
  induction m with
  | nil => simp [setA, lookupA]
  | cons p rest ih =>
    by_cases hk : p.1 = i
    · simp [setA, hk, lookupA]
    · simp [setA, hk, lookupA, ih]

/-- Setting the same key twice keeps only the second record. -/
theorem setA_setA (m : List (Nat × PartialToolCall)) (i : Nat) (v w : PartialToolCall) :
    setA (setA m i v) i w = setA m i w := by
  induction m with
  | nil => simp [setA]
  | cons p rest ih =>
    by_cases hk : p.1 = i
    · simp [setA, hk]
    · simp [setA, hk, ih]

/-- Setting an absent key appends it at the end (JS `Map` insertion
order). -/
theorem setA_absent (m : List (Nat × PartialToolCall)) (i : Nat) (v : PartialToolCall)
    (h : lookupA m i = none) : setA m i v = m ++ [(i, v)] := by
  induction m with
  | nil => simp [setA]
  | cons p rest ih =>
    by_cases hk : p.1 = i
    · rw [lookupA] at h
      simp [hk] at h
    · rw [lookupA] at h
      simp [hk] at h
      simp [setA, hk, ih h]

/-- Updating a present key does not change the key order. -/
theorem map_fst_setA_present (m : List (Nat × PartialToolCall)) (i : Nat)
    (v w : PartialToolCall) (h : lookupA m i = some w) :
    (setA m i v).map Prod.fst = m.map Prod.fst := by
  induction m with
  | nil => simp [lookupA] at h
  | cons p rest ih =>
    by_cases hk : p.1 = i
    · simp [setA, hk]
    · rw [lookupA] at h
      simp [hk] at h
      simp [setA, hk, ih h]

/-- A key is absent exactly when it is not among the map's keys. -/
theorem lookupA_eq_none_iff (m : List (Nat × PartialToolCall)) (i : Nat) :
    lookupA m i = none ↔ i ∉ m.map Prod.fst := by
  induction m with
  | nil => simp [lookupA]
  | cons p rest ih =>
    by_cases hk : p.1 = i
    · simp [lookupA, hk]
    · simp only [lookupA, List.map_cons, List.mem_cons]
      rw [if_neg hk, ih]
      constructor
      · rintro h (e | hm)
        · exact hk e.symm
        · exact h hm
      · intro h hm
        exact h (Or.inr hm)

/-- Every entry of a map after a set is the new entry or an old one. -/
theorem mem_setA (m : List (Nat × PartialToolCall)) (i : Nat) (v : PartialToolCall)
    (p : Nat × PartialToolCall) (h : p ∈ setA m i v) : p = (i, v) ∨ p ∈ m := by
  induction m with
  | nil => simp [setA] at h; simp [h]
  | cons q rest ih =>
    by_cases hk : q.1 = i
    · simp [setA, hk] at h
      rcases h with h | h
      · exact Or.inl (by simp [h])
      · exact Or.inr (List.mem_cons_of_mem q h)
    · simp [setA, hk] at h
      rcases h with h | h
      · exact Or.inr (by simp [h])
      · rcases ih h with h1 | h1
        · exact Or.inl h1
        · exact Or.inr (List.mem_cons_of_mem q h1)

/-- A successful lookup is a membership. -/
theorem lookupA_mem (m : List (Nat × PartialToolCall)) (i : Nat) (r : PartialToolCall)
    (h : lookupA m i = some r) : (i, r) ∈ m := by
  induction m with
  | nil => simp [lookupA] at h
  | cons p rest ih =>
    by_cases hk : p.1 = i
    · rw [lookupA, if_pos hk] at h
      have hr : r = p.2 := (Option.some.inj h).symm
      subst hr
      rw [← hk]
      exact List.mem_cons_self p rest
    · rw [lookupA, if_neg hk] at h
      exact List.mem_cons_of_mem p (ih h)

/-- A delta for an index already in the map merges into its record. -/
theorem apply_delta_known (m : List (Nat × PartialToolCall)) (d : ToolCallDelta) (i : Nat)
    (r : PartialToolCall) (hidx : d.index = some i) (hrec : lookupA m i = some r) :
    applyToolCallDelta m d = setA m i (mergeInto r d) := by
  simp [applyToolCallDelta, hidx, hrec]

/-- A delta for a fresh index initializes the record and then merges. -/
theorem apply_delta_new (m : List (Nat × PartialToolCall)) (d : ToolCallDelta) (i : Nat)
    (hidx : d.index = some i) (hrec : lookupA m i = none) :
    applyToolCallDelta m d = setA m i (mergeInto (initRec d) d) := by
  simp [applyToolCallDelta, hidx, hrec, lookupA_setA_self, setA_setA, initRec]

/-- Folding deltas that all target one present index folds the merges
into its record. -/
theorem foldl_apply_single (i : Nat) (ds : List ToolCallDelta) :
    ∀ (m : List (Nat × PartialToolCall)) (r : PartialToolCall),
      (∀ d ∈ ds, d.index = some i) → lookupA m i = some r →
      lookupA (ds.foldl applyToolCallDelta m) i = some (ds.foldl mergeInto r) := by
  induction ds with
  | nil => intro m r _ h; simpa using h
  | cons d rest ih =>
    intro m r hidx hrec
    have hd : d.index = some i := hidx d (List.mem_cons_self d rest)
    rw [List.foldl_cons, apply_delta_known m d i r hd hrec, List.foldl_cons]
    exact ih _ _ (fun x hx => hidx x (List.mem_cons_of_mem d hx)) (lookupA_setA_self m i _)

/-- `String.join` of a cons. -/
theorem join_cons_str (a : String) (l : List String) :
    String.join (a :: l) = a ++ String.join l := by
  have key : ∀ (l : List String) (s : String),
      l.foldl (fun r t => r ++ t) s = s ++ l.foldl (fun r t => r ++ t) "" := by
    intro l
    induction l with
    | nil => intro s; simp
    | cons x xs ih =>
      intro s
      simp only [List.foldl_cons]
      rw [ih (s ++ x), ih ("" ++ x)]
      simp [String.append_assoc]
  simp only [String.join, List.foldl_cons]
  rw [key l ("" ++ a)]
  simp

/-- The merge updates the id to a truthy delta id and otherwise keeps
it. -/
theorem mergeInto_id_eq (r : PartialToolCall) (d : ToolCallDelta) :
    (mergeInto r d).id = match idDeltaOf d with
      | some v => some v
      | none => r.id := by
  unfold mergeInto idDeltaOf
  cases hid : d.id with
  | none =>
    cases d.function with
    | none => simp [jsTruthy]
    | some f => simp only [jsTruthy]; split <;> split <;> simp [jsTruthy]
  | some s =>
    cases he : s.isEmpty
    · cases d.function with
      | none => simp [jsTruthy, he]
      | some f => simp only [jsTruthy, he]; split <;> split <;> simp [jsTruthy, he]
    · cases d.function with
      | none => simp [jsTruthy, he]
      | some f => simp only [jsTruthy, he]; split <;> split <;> simp [jsTruthy, he]

/-- The merge replaces the name by a truthy delta name and concatenates
a truthy argument fragment. -/
theorem mergeInto_function_eq (r : PartialToolCall) (d : ToolCallDelta) (fn : PartialFn)
    (hfn : r.function = some fn) :
    (mergeInto r d).function =
      some { name := (nameDeltaOf d).getD fn.name,
             arguments := fn.arguments ++ ((argDeltaOf d).getD "") } := by
  cases hdf : d.function with
  | none =>
    simp [mergeInto, nameDeltaOf, argDeltaOf, hdf, hfn, String.append_empty,
      apply_ite PartialToolCall.function]
  | some f =>
    cases hname : f.name with
    | none =>
      cases hargs : f.arguments with
      | none =>
        simp [mergeInto, nameDeltaOf, argDeltaOf, hdf, hname, hargs, jsTruthy, hfn,
          String.append_empty, apply_ite PartialToolCall.function]
      | some a =>
        cases ha : a.isEmpty <;>
          simp [mergeInto, nameDeltaOf, argDeltaOf, hdf, hname, hargs, jsTruthy, ha, hfn,
            String.append_empty, apply_ite PartialToolCall.function]
    | some n =>
      cases hn : n.isEmpty <;> cases hargs : f.arguments with
      | none =>
        simp [mergeInto, nameDeltaOf, argDeltaOf, hdf, hname, hargs, jsTruthy, hn, hfn,
          String.append_empty, apply_ite PartialToolCall.function]
      | some a =>
        cases ha : a.isEmpty <;>
          simp [mergeInto, nameDeltaOf, argDeltaOf, hdf, hname, hargs, jsTruthy, hn, ha, hfn,
            String.append_empty, apply_ite PartialToolCall.function]

/-- Closed form of the folded id: the last truthy id delta wins,
falling back to the start record's id. -/
theorem foldl_merge_id (ds : List ToolCallDelta) :
    ∀ r : PartialToolCall,
      (ds.foldl mergeInto r).id = ((idDeltasOf ds).map some).getLastD r.id := by
  induction ds with
  | nil => intro r; simp [idDeltasOf]
  | cons d rest ih =>
    intro r
    rw [List.foldl_cons, ih]
    cases hd : idDeltaOf d with
    | none =>
      simp [idDeltasOf, List.filterMap_cons, hd, mergeInto_id_eq]
    | some v =>
      simp only [idDeltasOf, List.filterMap_cons, hd, List.map_cons, List.getLastD_cons]
      rw [mergeInto_id_eq]
      simp [hd, idDeltasOf]

/-- Closed form of the folded function record: the last truthy name
delta wins and the truthy argument fragments concatenate in arrival
order. -/
theorem foldl_merge_function (ds : List ToolCallDelta) :
    ∀ (r : PartialToolCall) (fn : PartialFn), r.function = some fn →
      (ds.foldl mergeInto r).function =
        some { name := (nameDeltasOf ds).getLastD fn.name,
               arguments := fn.arguments ++ String.join (argDeltasOf ds) } := by
  induction ds with
  | nil =>
    intro r fn hfn
    simp [nameDeltasOf, argDeltasOf, hfn, String.join, String.append_empty]
  | cons d rest ih =>
    intro r fn hfn
    rw [List.foldl_cons]
    rw [ih (mergeInto r d)
      { name := (nameDeltaOf d).getD fn.name,
        arguments := fn.arguments ++ ((argDeltaOf d).getD "") }
      (mergeInto_function_eq r d fn hfn)]
    cases hn : nameDeltaOf d with
    | none =>
      cases ha : argDeltaOf d with
      | none =>
        simp [nameDeltasOf, argDeltasOf, List.filterMap_cons, hn, ha, String.append_empty]
      | some a =>
        simp only [nameDeltasOf, argDeltasOf, List.filterMap_cons, hn, ha, Option.getD_none,
          Option.getD_some, join_cons_str]
        simp [String.append_assoc]
    | some n =>
      cases ha : argDeltaOf d with
      | none =>
        simp only [nameDeltasOf, argDeltasOf, List.filterMap_cons, hn, ha, Option.getD_none,
          Option.getD_some, List.getLastD_cons, String.append_empty]
      | some a =>
        simp only [nameDeltasOf, argDeltasOf, List.filterMap_cons, hn, ha, Option.getD_none,
          Option.getD_some, join_cons_str, List.getLastD_cons, String.append_assoc]

/-- C2: for every non-empty sequence of tool-call deltas sharing one
index, the accumulated record at that index ends with: arguments equal
to the concatenation, in arrival order, of all non-empty argument
deltas (never an overwrite); name equal to the last non-empty name
delta (empty when none was ever supplied — a present name is never
cleared); and id equal to the last non-empty id delta, falling back to
the first delta's id field (a present id is never cleared or replaced
by an empty one). -/
theorem toolCallAccumulator_merge_closed_form (i : Nat) (d0 : ToolCallDelta)
    (rest : List ToolCallDelta) (hidx : ∀ d ∈ d0 :: rest, d.index = some i) :
    lookupA ((d0 :: rest).foldl applyToolCallDelta []) i =
      some { id := ((idDeltasOf (d0 :: rest)).map some).getLastD d0.id,
             function := some { name := (nameDeltasOf (d0 :: rest)).getLastD "",
                                arguments := String.join (argDeltasOf (d0 :: rest)) } } := by
  have hd0 : d0.index = some i := hidx d0 (List.mem_cons_self d0 rest)
  have h1 : applyToolCallDelta [] d0 = setA [] i (mergeInto (initRec d0) d0) :=
    apply_delta_new [] d0 i hd0 rfl
  rw [List.foldl_cons, h1]
  rw [foldl_apply_single i rest _ _ (fun d hd => hidx d (List.mem_cons_of_mem d0 hd))
    (lookupA_setA_self [] i _)]
  have h3 : rest.foldl mergeInto (mergeInto (initRec d0) d0)
      = (d0 :: rest).foldl mergeInto (initRec d0) := by rw [List.foldl_cons]
  rw [h3]
  have hid := foldl_merge_id (d0 :: rest) (initRec d0)
  have hfn := foldl_merge_function (d0 :: rest) (initRec d0) { name := "", arguments := "" } rfl
  cases hX : (d0 :: rest).foldl mergeInto (initRec d0) with
  | mk xid xfn =>
    rw [hX] at hid hfn
    simp only at hid hfn
    rw [hid, hfn]
    rfl

/-- C2 (witness): the spec's three-fragment example accumulates to the
single argument string, with the set-once id and name. -/
theorem toolCallAccumulator_merge_closed_form_witness :
    lookupA ((dSpec0W :: [dSpec1W, dSpec2W]).foldl applyToolCallDelta []) 0 =
      some { id := some "call_1",
             function := some { name := "web_search",
                                arguments := "\x7b\"query\":\"rain in\"\x7d" } } :=
  (toolCallAccumulator_merge_closed_form 0 dSpec0W [dSpec1W, dSpec2W] (by decide)).trans
    (by decide)

/-- C3 (counterexample): no delta ever supplies a name for index 0, yet
the record (which has an id) IS materialized, with an empty name: the
end-of-stream filter only checks the fields for being defined, and
`function.name` is always a defined string after initialization, so a
missing name does not exclude a record. -/
theorem toolCall_missing_name_included_counterexample :
    (∀ d ∈ dsNoNameW, (d.function.bind ToolCallFnDelta.name) = none) ∧
    completeToolCalls (dsNoNameW.foldl applyToolCallDelta []) =
      [{ id := "call_1", function := { name := "", arguments := "\x7b\x7d" } }] :=
  ⟨by decide, by decide⟩

/-- Merging preserves definedness of the `function` field. -/
theorem mergeInto_isSome (r : PartialToolCall) (d : ToolCallDelta)
    (hr : r.function.isSome = true) : (mergeInto r d).function.isSome = true := by
  obtain ⟨fn, hfn⟩ := Option.isSome_iff_exists.mp hr
  rw [mergeInto_function_eq r d fn hfn]
  rfl

/-- Applying one delta preserves definedness of every record's
`function` field (a fresh index is initialized with a defined one). -/
theorem apply_preserves_isSome (m : List (Nat × PartialToolCall)) (d : ToolCallDelta)
    (h : ∀ p ∈ m, p.2.function.isSome = true) :
    ∀ p ∈ applyToolCallDelta m d, p.2.function.isSome = true := by
  intro p hp
  cases hdx : d.index with
  | none =>
    rw [applyToolCallDelta, hdx] at hp
    exact h p hp
  | some i =>
    cases hl : lookupA m i with
    | none =>
      rw [apply_delta_new m d i hdx hl] at hp
      rcases mem_setA _ _ _ _ hp with he | hm
      · rw [he]
        exact mergeInto_isSome (initRec d) d rfl
      · exact h p hm
    | some r =>
      rw [apply_delta_known m d i r hdx hl] at hp
      rcases mem_setA _ _ _ _ hp with he | hm
      · rw [he]
        exact mergeInto_isSome r d (h (i, r) (lookupA_mem m i r hl))
      · exact h p hm

/-- The accumulator invariant over a whole delta stream. -/
theorem foldl_preserves_isSome (ds : List ToolCallDelta) :
    ∀ m : List (Nat × PartialToolCall), (∀ p ∈ m, p.2.function.isSome = true) →
      ∀ p ∈ ds.foldl applyToolCallDelta m, p.2.function.isSome = true := by
  induction ds with
  | nil => intro m h; simpa using h
  | cons d rest ih =>
    intro m h
    rw [List.foldl_cons]
    exact ih _ (apply_preserves_isSome m d h)

/-- C3 (amended): after any delta stream every accumulated record has a
defined `function` (with name and arguments strings, possibly empty),
so the materialized batch contains exactly the records with a DEFINED
id — records that never received an id are dropped silently, but a
record whose name was never supplied is still included (with an empty
name), contrary to the original claim. -/
theorem toolCall_batch_filters_only_on_id (ds : List ToolCallDelta) :
    ((ds.foldl applyToolCallDelta []).all (fun p => p.2.function.isSome)) = true ∧
    completeToolCalls (ds.foldl applyToolCallDelta []) =
      (ds.foldl applyToolCallDelta []).filterMap (fun p =>
        match p.2.id with
        | some id => some
            { id := id,
              function := { name := ((p.2.function).map PartialFn.name).getD "",
                            arguments := ((p.2.function).map PartialFn.arguments).getD "" } }
        | none => none) := by
  have hinv := foldl_preserves_isSome ds [] (by simp)
  constructor
  · rw [List.all_eq_true]
    exact fun p hp => hinv p hp
  · rw [completeToolCalls]
    apply List.filterMap_congr
    intro p hp
    obtain ⟨fn, hfn⟩ := Option.isSome_iff_exists.mp (hinv p hp)
    rw [hfn]
    cases hid : p.2.id <;> simp

/-- C4 (counterexample): when index 1 arrives before index 0, the
materialized batch lists the call of index 1 FIRST — iteration follows
the JS `Map` insertion order, not ascending index order. -/
theorem toolCall_batch_not_index_sorted_counterexample :
    (dsOrderW.foldl applyToolCallDelta []).map Prod.fst = [1, 0] ∧
    completeToolCalls (dsOrderW.foldl applyToolCallDelta []) =
      [{ id := "b", function := { name := "web_search", arguments := "\x7b\x7d" } },
       { id := "a", function := { name := "web_search", arguments := "\x7b\x7d" } }] ∧
    ¬ List.Sorted (· ≤ ·) ((dsOrderW.foldl applyToolCallDelta []).map Prod.fst) :=
  ⟨by decide, by decide, by decide⟩

/-- One delta extends the accumulator's key sequence by first
appearance. -/
theorem map_fst_apply (m : List (Nat × PartialToolCall)) (d : ToolCallDelta) :
    (applyToolCallDelta m d).map Prod.fst = keyOrderStep (m.map Prod.fst) d := by
  cases hdx : d.index with
  | none => simp [applyToolCallDelta, keyOrderStep, hdx]
  | some i =>
    cases hl : lookupA m i with
    | none =>
      rw [apply_delta_new m d i hdx hl, setA_absent m i _ hl]
      have hni : i ∉ m.map Prod.fst := (lookupA_eq_none_iff m i).mp hl
      simp [keyOrderStep, hdx, hni]
    | some r =>
      rw [apply_delta_known m d i r hdx hl, map_fst_setA_present m i _ r hl]
      have hmi : i ∈ m.map Prod.fst := by
        by_contra hmem
        rw [← lookupA_eq_none_iff] at hmem
        rw [hmem] at hl
        exact Option.noConfusion hl
      simp [keyOrderStep, hdx, hmi]

/-- C4 (amended): the accumulator's records — and hence the materialized
batch, an order-preserving filter of them — are ordered by the FIRST
APPEARANCE of each stream index in the delta sequence (JS `Map`
insertion order), not by ascending index. -/
theorem toolCall_batch_insertion_order (ds : List ToolCallDelta) :
    (ds.foldl applyToolCallDelta []).map Prod.fst = ds.foldl keyOrderStep [] := by
  suffices h : ∀ (ds : List ToolCallDelta) (m : List (Nat × PartialToolCall)),
      (ds.foldl applyToolCallDelta m).map Prod.fst = ds.foldl keyOrderStep (m.map Prod.fst) by
    simpa using h ds []
  intro ds
  induction ds with
  | nil => intro m; simp
  | cons d rest ih =>
    intro m
    rw [List.foldl_cons, List.foldl_cons, ih, map_fst_apply]

/-! ### C1 / C5 / C10 — the stream decoder

List and `splitNL` support lemmas. -/

/-- `splitNL` always produces at least one segment. -/
theorem splitNL_ne_nil (s : List Char) : splitNL s ≠ [] := by
  cases s with
  | nil => simp [splitNL]
  | cons c cs =>
    rw [splitNL]
    split <;> simp

/-- Reassembling a non-empty list from its head and tail. -/
theorem headD_cons_tail {α : Type} (ls : List α) (d : α) (h : ls ≠ []) :
    ls.headD d :: ls.tail = ls := by
  cases ls with
  | nil => exact absurd rfl h
  | cons a t => rfl

/-- The last element (with default) of a non-empty list is a member. -/
theorem getLastD_mem {α : Type} (l : List α) : ∀ (d : α), l ≠ [] → l.getLastD d ∈ l := by
  induction l with
  | nil => intro d h; exact absurd rfl h
  | cons a t ih =>
    intro d h
    cases ht : t with
    | nil => simp [List.getLastD_cons]
    | cons b t2 =>
      rw [List.getLastD_cons, ← ht]
      exact List.mem_cons_of_mem a (ih a (by rw [ht]; exact List.cons_ne_nil b t2))

/-- The head (with default) of a non-empty list is a member. -/
theorem headD_mem {α : Type} (l : List α) (d : α) (h : l ≠ []) : l.headD d ∈ l := by
  cases l with
  | nil => exact absurd rfl h
  | cons a t => exact List.mem_cons_self a t

/-- Tail membership implies membership. -/
theorem mem_of_mem_tail {α : Type} (l : List α) (x : α) (h : x ∈ l.tail) : x ∈ l := by
  cases l with
  | nil => simp at h
  | cons a t => exact List.mem_cons_of_mem a h

/-- A newline-free text is a single segment. -/
theorem splitNL_no_newline (s : List Char) (h : '\n' ∉ s) : splitNL s = [s] := by
  induction s with
  | nil => rfl
  | cons c cs ih =>
    have hc : ¬ c = '\n' := fun e => h (by rw [e]; exact List.mem_cons_self _ _)
    have hcs : '\n' ∉ cs := fun hm => h (List.mem_cons_of_mem c hm)
    rw [splitNL, if_neg hc, ih hcs]
    rfl

/-- No segment produced by `splitNL` contains a newline. -/
theorem splitNL_mem_no_newline (s : List Char) :
    ∀ l ∈ splitNL s, '\n' ∉ l := by
  induction s with
  | nil =>
    intro l hl
    rw [splitNL] at hl
    simp at hl
    simp [hl]
  | cons c cs ih =>
    intro l hl
    rw [splitNL] at hl
    by_cases hc : c = '\n'
    · rw [if_pos hc] at hl
      rcases List.mem_cons.mp hl with e | hm
      · simp [e]
      · exact ih l hm
    · rw [if_neg hc] at hl
      rcases List.mem_cons.mp hl with e | hm
      · rw [e]
        intro hmem
        rcases List.mem_cons.mp hmem with e2 | hm2
        · exact hc e2.symm
        · exact ih _ (headD_mem _ _ (splitNL_ne_nil cs)) hm2
      · exact ih l (mem_of_mem_tail _ _ hm)

/-- The carried-over trailing segment contains no newline. -/
theorem splitNL_getLastD_no_newline (s : List Char) :
    '\n' ∉ (splitNL s).getLastD [] :=
  splitNL_mem_no_newline s _ (getLastD_mem _ _ (splitNL_ne_nil s))

/-- The default is irrelevant for the last element of a non-empty
list. -/
theorem getLastD_default_irrel {α : Type} (ys : List α) (h : ys ≠ []) (d1 d2 : α) :
    ys.getLastD d1 = ys.getLastD d2 := by
  cases ys with
  | nil => exact absurd rfl h
  | cons b t => rw [List.getLastD_cons, List.getLastD_cons]

/-- The last element of an append with a non-empty right part. -/
theorem getLastD_append {α : Type} (xs : List α) :
    ∀ (ys : List α) (d : α), ys ≠ [] → (xs ++ ys).getLastD d = ys.getLastD d := by
  induction xs with
  | nil => intro ys d h; rfl
  | cons a t ih =>
    intro ys d h
    rw [List.cons_append, List.getLastD_cons, ih ys a h]
    exact getLastD_default_irrel ys h a d

/-- How `splitNL` decomposes over an append: the completed segments of
the left part, then the glued segment spanning the boundary, then the
segments of the right part. -/
theorem splitNL_append (a b : List Char) :
    splitNL (a ++ b) =
      (splitNL a).dropLast ++
        (((splitNL a).getLastD [] ++ (splitNL b).headD []) :: (splitNL b).tail) := by
  induction a with
  | nil =>
    have h1 : splitNL ([] ++ b) = splitNL b := by rw [List.nil_append]
    have h2 : splitNL ([] : List Char) = [[]] := rfl
    rw [h1, h2]
    simp only [List.dropLast_single, List.nil_append, List.getLastD_cons, List.getLastD_nil]
    rw [headD_cons_tail _ _ (splitNL_ne_nil b)]
  | cons c a' ih =>
    by_cases hc : c = '\n'
    · rw [List.cons_append, splitNL, if_pos hc]
      conv_rhs => rw [splitNL, if_pos hc]
      rw [ih]
      rcases hr : splitNL a' with _ | ⟨x, ts⟩
      · exact absurd hr (splitNL_ne_nil a')
      · simp [List.getLastD_cons]
    · rw [List.cons_append, splitNL, if_neg hc]
      conv_rhs => rw [splitNL, if_neg hc]
      rw [ih]
      rcases hr : splitNL a' with _ | ⟨x, ts⟩
      · exact absurd hr (splitNL_ne_nil a')
      · cases ts with
        | nil =>
          simp only [List.dropLast_single, List.nil_append, List.getLastD_cons,
            List.getLastD_nil, List.headD, List.tail, List.cons_append]
        | cons y ts2 =>
          simp only [List.headD, List.tail, List.dropLast, List.getLastD_cons, List.cons_append]

/-- A terminated decoder processes no line (the generator returned). -/
theorem processLine_terminated (parse : List Char → Option ChoiceDelta) (s : CoreState)
    (l : List Char) (h : s.terminated = true) : processLine parse s l = (s, []) := by
  rw [processLine, if_pos h]

/-- A terminated decoder processes no line sequence. -/
theorem processLines_terminated (parse : List Char → Option ChoiceDelta) (s : CoreState)
    (L : List (List Char)) (h : s.terminated = true) : processLines parse s L = (s, []) := by
  induction L with
  | nil => rfl
  | cons l ls ih =>
    rw [processLines, processLine_terminated parse s l h]
    simp [ih]

/-- The line loop composes over appended line sequences. -/
theorem processLines_append (parse : List Char → Option ChoiceDelta) (L1 : List (List Char)) :
    ∀ (s : CoreState) (L2 : List (List Char)),
      processLines parse s (L1 ++ L2) =
        ((processLines parse (processLines parse s L1).1 L2).1,
         (processLines parse s L1).2 ++ (processLines parse (processLines parse s L1).1 L2).2) := by
  induction L1 with
  | nil => intro s L2; simp [processLines]
  | cons l ls ih =>
    intro s L2
    rw [List.cons_append, processLines, ih, processLines]
    simp [List.append_assoc]

/-- Feeding one chunk composes with feeding its two halves: the events
concatenate, the accumulator/termination core agrees, and outside the
(dead) post-termination buffer the full states agree. -/
theorem runChunk_append (parse : List Char → Option ChoiceDelta) (s : DecState) (a b : List Char) :
    (runChunk parse s (a ++ b)).2 =
      (runChunk parse s a).2 ++ (runChunk parse (runChunk parse s a).1 b).2 ∧
    (runChunk parse s (a ++ b)).1.core = (runChunk parse (runChunk parse s a).1 b).1.core ∧
    ((runChunk parse s (a ++ b)).1.core.terminated = false →
      (runChunk parse s (a ++ b)).1 = (runChunk parse (runChunk parse s a).1 b).1) := by
  by_cases hterm : s.core.terminated = true
  · have h0 : ∀ c, runChunk parse s c = (s, []) := fun c => by rw [runChunk, if_pos hterm]
    simp [h0]
  · have hsplit : splitNL (s.buffer ++ (a ++ b)) =
        (splitNL (s.buffer ++ a)).dropLast ++
          (((splitNL (s.buffer ++ a)).getLastD [] ++ (splitNL b).headD []) ::
            (splitNL b).tail) := by
      rw [← List.append_assoc, splitNL_append]
    set P1 := splitNL (s.buffer ++ a) with hP1
    set sb := splitNL b with hsb
    set glue := (P1.getLastD [] ++ sb.headD []) :: sb.tail with hglue
    have hglue_ne : glue ≠ [] := by simp [hglue]
    have hdrop : (splitNL (s.buffer ++ (a ++ b))).dropLast = P1.dropLast ++ glue.dropLast := by
      rw [hsplit]
      exact List.dropLast_append_of_ne_nil P1.dropLast hglue_ne
    have hlast : (splitNL (s.buffer ++ (a ++ b))).getLastD [] = glue.getLastD [] := by
      rw [hsplit]
      exact getLastD_append _ _ _ hglue_ne
    have hrc1 : runChunk parse s a =
        ({ core := (processLines parse s.core P1.dropLast).1, buffer := P1.getLastD [] },
         (processLines parse s.core P1.dropLast).2) := by
      rw [runChunk, if_neg hterm]
    have hrcab : runChunk parse s (a ++ b) =
        ({ core := (processLines parse s.core (P1.dropLast ++ glue.dropLast)).1,
           buffer := glue.getLastD [] },
         (processLines parse s.core (P1.dropLast ++ glue.dropLast)).2) := by
      rw [runChunk, if_neg hterm, hdrop, hlast]
    rw [hrcab, hrc1]
    rw [processLines_append parse P1.dropLast s.core glue.dropLast]
    by_cases hterm1 : (processLines parse s.core P1.dropLast).1.terminated = true
    · have hpl2 : processLines parse (processLines parse s.core P1.dropLast).1 glue.dropLast =
          ((processLines parse s.core P1.dropLast).1, []) :=
        processLines_terminated parse _ _ hterm1
      have hb : runChunk parse
          ({ core := (processLines parse s.core P1.dropLast).1, buffer := P1.getLastD [] })
          b =
          ({ core := (processLines parse s.core P1.dropLast).1, buffer := P1.getLastD [] },
           []) := by
        rw [runChunk, if_pos hterm1]
      rw [hb, hpl2]
      refine ⟨by simp, rfl, ?_⟩
      intro hfalse
      rw [hterm1] at hfalse
      exact Bool.noConfusion hfalse
    · have hb2 : splitNL (P1.getLastD [] ++ b) = glue := by
        rw [splitNL_append, splitNL_no_newline (P1.getLastD [])
          (by rw [hP1]; exact splitNL_getLastD_no_newline (s.buffer ++ a))]
        simp [hglue, hsb, List.getLastD_cons]
      have hb3 : runChunk parse
          ({ core := (processLines parse s.core P1.dropLast).1, buffer := P1.getLastD [] })
          b =
          ({ core := (processLines parse (processLines parse s.core P1.dropLast).1
                glue.dropLast).1,
             buffer := glue.getLastD [] },
           (processLines parse (processLines parse s.core P1.dropLast).1 glue.dropLast).2) := by
        rw [runChunk, if_neg hterm1]
        simp only []
        rw [hb2]
      rw [hb3]
      exact ⟨rfl, rfl, fun _ => rfl⟩

/-- Feeding an empty chunk is a no-op (the buffer holds no newline). -/
theorem runChunk_nil (parse : List Char → Option ChoiceDelta) (s : DecState)
    (hbuf : '\n' ∉ s.buffer) : runChunk parse s [] = (s, []) := by
  by_cases hterm : s.core.terminated = true
  · rw [runChunk, if_pos hterm]
  · rw [runChunk, if_neg hterm]
    rw [List.append_nil, splitNL_no_newline s.buffer hbuf]
    simp [processLines]

/-- The decoder's buffer never contains a newline. -/
theorem runChunk_buffer_inv (parse : List Char → Option ChoiceDelta) (s : DecState)
    (c : List Char) (hbuf : '\n' ∉ s.buffer) : '\n' ∉ (runChunk parse s c).1.buffer := by
  by_cases hterm : s.core.terminated = true
  · rw [runChunk, if_pos hterm]
    exact hbuf
  · rw [runChunk, if_neg hterm]
    exact splitNL_getLastD_no_newline (s.buffer ++ c)

/-- Decoding a chunk sequence equals decoding its concatenation as one
chunk. -/
theorem decodeFrom_join (parse : List Char → Option ChoiceDelta) (chunks : List (List Char)) :
    ∀ s : DecState, '\n' ∉ s.buffer →
      decodeFrom parse s chunks =
        (runChunk parse s chunks.flatten).2 ++
          finalFlush (runChunk parse s chunks.flatten).1 := by
  induction chunks with
  | nil =>
    intro s hbuf
    rw [show ([] : List (List Char)).flatten = [] from rfl, runChunk_nil parse s hbuf]
    rfl
  | cons c cs ih =>
    intro s hbuf
    have hstep : decodeFrom parse s (c :: cs) =
        (runChunk parse s c).2 ++ decodeFrom parse (runChunk parse s c).1 cs := by
      rw [decodeFrom, decodeFrom, runChunks]
      simp [List.append_assoc]
    rw [hstep, ih _ (runChunk_buffer_inv parse s c hbuf)]
    have happ := runChunk_append parse s c cs.flatten
    rw [show (c :: cs).flatten = c ++ cs.flatten from rfl]
    rw [happ.1, List.append_assoc]
    congr 1
    congr 1
    rw [finalFlush, finalFlush, happ.2.1]

/-- C1: for every logical stream and every way of splitting it into
chunks, `streamChat` yields the same event sequence (in particular the
same text fragments) as when the identical stream arrives in one
unsplit chunk; and an incomplete trailing line (no newline yet) is only
carried over in the buffer — it produces no event and is not parsed
until its newline arrives. -/
theorem streamChat_chunk_boundary_insensitive :
    (∀ (parse : List Char → Option ChoiceDelta) (chunks : List (List Char)),
      streamChatEvents parse chunks = streamChatEvents parse [chunks.flatten]) ∧
    (∀ (parse : List Char → Option ChoiceDelta) (s : DecState) (chunk : List Char),
      s.core.terminated = false → '\n' ∉ s.buffer → '\n' ∉ chunk →
      runChunk parse s chunk = ({ core := s.core, buffer := s.buffer ++ chunk }, [])) := by
  constructor
  · intro parse chunks
    rw [streamChatEvents, streamChatEvents,
      decodeFrom_join parse chunks initDecState (by simp [initDecState]),
      decodeFrom_join parse [chunks.flatten] initDecState (by simp [initDecState])]
    rw [show [chunks.flatten].flatten = chunks.flatten ++ [] from rfl, List.append_nil]
  · intro parse s chunk hterm hbuf hchunk
    rw [runChunk, if_neg (by simp [hterm])]
    have hnl : '\n' ∉ s.buffer ++ chunk := by
      intro hm
      rcases List.mem_append.mp hm with h | h
      · exact hbuf h
      · exact hchunk h
    rw [splitNL_no_newline _ hnl]
    simp [processLines]

/-- C1 (witness): a two-line stream split in the middle of its second
line yields the same events as the unsplit stream, and a chunk without
a newline only extends the buffer. -/
theorem streamChat_chunk_boundary_insensitive_witness :
    streamChatEvents parseHiW [("data: x\nda").data, ("ta: x\n").data] =
      streamChatEvents parseHiW [[("data: x\nda").data, ("ta: x\n").data].flatten] ∧
    runChunk parseNoneW { core := { acc := [], terminated := false }, buffer := ['d'] } ['a'] =
      ({ core := { acc := [], terminated := false }, buffer := ['d'] ++ ['a'] }, []) :=
  ⟨streamChat_chunk_boundary_insensitive.1 parseHiW [("data: x\nda").data, ("ta: x\n").data],
   streamChat_chunk_boundary_insensitive.2 parseNoneW
     { core := { acc := [], terminated := false }, buffer := ['d'] } ['a']
     rfl (by decide) (by decide)⟩

/-- Trimming to empty means every character was whitespace. -/
theorem jsTrim_eq_nil_all (l : List Char) (h : jsTrim l = []) : ∀ c ∈ l, isJsSpace c = true := by
  have h1 : (l.dropWhile isJsSpace).reverse.dropWhile isJsSpace = [] := by
    rw [jsTrim] at h
    exact List.reverse_eq_nil_iff.mp h
  have h2 : ∀ x ∈ (l.dropWhile isJsSpace).reverse, isJsSpace x = true :=
    List.dropWhile_eq_nil_iff.mp h1
  intro c hc
  rw [← List.takeWhile_append_dropWhile (p := isJsSpace) (l := l)] at hc
  rcases List.mem_append.mp hc with hm | hm
  · exact List.mem_takeWhile_imp hm
  · exact h2 c (List.mem_reverse.mpr hm)

/-- A `data: `-marked line does not trim to the empty line. -/
theorem dataMarker_trim_ne (line : List Char) (h : dataMarker.isPrefixOf line = true) :
    ¬ jsTrim line = [] := by
  intro he
  have hd : 'd' ∈ line := by
    cases hl : line with
    | nil => rw [hl] at h; simp [dataMarker, List.isPrefixOf] at h
    | cons c rest =>
      rw [hl] at h
      have h2 : (('d' == c) && (['a', 't', 'a', ':', ' '].isPrefixOf rest)) = true := h
      have h3 : 'd' = c := eq_of_beq ((Bool.and_eq_true _ _).mp h2).1
      rw [← h3]
      exact List.mem_cons_self _ _
  have hsp := jsTrim_eq_nil_all line he 'd' hd
  exact absurd hsp (by decide)

/-- C5: a `data: `-prefixed line whose payload fails to parse is
skipped in place — the decoder state (accumulator and termination flag)
is unchanged and no event is produced — so a line sequence containing
such a line decodes exactly like the sequence with that line removed:
every subsequent valid line's fragment is still emitted unchanged. -/
theorem decoder_skips_unparsable_line (parse : List Char → Option ChoiceDelta)
    (s : CoreState) (line : List Char)
    (hmark : dataMarker.isPrefixOf line = true)
    (hdone : line.drop 6 ≠ doneChars)
    (hbad : parse (line.drop 6) = none) :
    processLine parse s line = (s, []) ∧
    ∀ (pre post : List (List Char)),
      processLines parse s (pre ++ line :: post) = processLines parse s (pre ++ post) := by
  have hline : ∀ t : CoreState, processLine parse t line = (t, []) := by
    intro t
    by_cases hterm : t.terminated = true
    · exact processLine_terminated parse t line hterm
    · rw [processLine, if_neg hterm, if_neg (dataMarker_trim_ne line hmark), if_pos hmark]
      simp only [if_neg hdone, hbad]
  refine ⟨hline s, ?_⟩
  intro pre post
  rw [processLines_append, processLines_append]
  have hmid : ∀ t : CoreState, processLines parse t (line :: post) = processLines parse t post := by
    intro t
    rw [processLines, hline t]
    simp
  rw [hmid]

/-- C5 (witness): the line `data: oops` under a parse function that
rejects everything is skipped, and removing it from a line sequence
changes nothing. -/
theorem decoder_skips_unparsable_line_witness :
    processLine parseNoneW { acc := [], terminated := false } (("data: oops").data) =
      ({ acc := [], terminated := false }, []) ∧
    processLines parseNoneW { acc := [], terminated := false }
        ([] ++ ("data: oops").data :: []) =
      processLines parseNoneW { acc := [], terminated := false } ([] ++ []) :=
  ⟨(decoder_skips_unparsable_line parseNoneW { acc := [], terminated := false }
      (("data: oops").data) (by decide) (by decide) rfl).1,
   (decoder_skips_unparsable_line parseNoneW { acc := [], terminated := false }
      (("data: oops").data) (by decide) (by decide) rfl).2 [] []⟩

/-- The flush never yields a text event. -/
theorem flushEvents_no_text (m : List (Nat × PartialToolCall)) (str : String)
    (h : StreamEventRaw.text str ∈ flushEvents m) : False := by
  rw [flushEvents] at h
  split at h
  · simp at h
  · split at h
    · simp at h
    · simp at h

/-- Any text event one line produces is non-empty (the `if (content)`
truthiness guard). -/
theorem processLine_text_ne (parse : List Char → Option ChoiceDelta) (s : CoreState)
    (l : List Char) (str : String)
    (h : StreamEventRaw.text str ∈ (processLine parse s l).2) : str ≠ "" := by
  by_cases hterm : s.terminated = true
  · rw [processLine_terminated parse s l hterm] at h
    simp at h
  · rw [processLine, if_neg hterm] at h
    by_cases htrim : jsTrim l = []
    · rw [if_pos htrim] at h
      simp at h
    · rw [if_neg htrim] at h
      by_cases hmark : dataMarker.isPrefixOf l = true
      · rw [if_pos hmark] at h
        dsimp only at h
        by_cases hdone : List.drop 6 l = doneChars
        · rw [if_pos hdone] at h
          exact absurd h (fun hm => flushEvents_no_text _ _ hm)
        · rw [if_neg hdone] at h
          cases hp : parse (List.drop 6 l) with
          | none =>
            rw [hp] at h
            simp at h
          | some delta =>
            rw [hp] at h
            dsimp only at h
            cases hc : delta.content with
            | none =>
              rw [hc] at h
              simp at h
            | some c =>
              rw [hc] at h
              dsimp only at h
              by_cases hce : c.isEmpty = true
              · rw [if_pos hce] at h
                simp at h
              · rw [if_neg hce] at h
                simp at h
                rw [h]
                intro he
                rw [he] at hce
                exact hce rfl
      · rw [if_neg hmark] at h
        simp at h

/-- Any text event the line loop produces is non-empty. -/
theorem processLines_text_ne (parse : List Char → Option ChoiceDelta) (L : List (List Char)) :
    ∀ (s : CoreState) (str : String),
      StreamEventRaw.text str ∈ (processLines parse s L).2 → str ≠ "" := by
  induction L with
  | nil => intro s str h; simp [processLines] at h
  | cons l ls ih =>
    intro s str h
    rw [processLines] at h
    rcases List.mem_append.mp h with hm | hm
    · exact processLine_text_ne parse s l str hm
    · exact ih _ str hm

/-- Any text event one chunk produces is non-empty. -/
theorem runChunk_text_ne (parse : List Char → Option ChoiceDelta) (s : DecState)
    (c : List Char) (str : String)
    (h : StreamEventRaw.text str ∈ (runChunk parse s c).2) : str ≠ "" := by
  by_cases hterm : s.core.terminated = true
  · rw [runChunk, if_pos hterm] at h
    simp at h
  · rw [runChunk, if_neg hterm] at h
    exact processLines_text_ne parse _ _ str h

/-- Any text event the reader loop produces is non-empty. -/
theorem runChunks_text_ne (parse : List Char → Option ChoiceDelta) (cs : List (List Char)) :
    ∀ (s : DecState) (str : String),
      StreamEventRaw.text str ∈ (runChunks parse s cs).2 → str ≠ "" := by
  induction cs with
  | nil => intro s str h; simp [runChunks] at h
  | cons c rest ih =>
    intro s str h
    rw [runChunks] at h
    rcases List.mem_append.mp h with hm | hm
    · exact runChunk_text_ne parse s c str hm
    · exact ih _ str hm

/-- C10: every string event `streamChat` yields is non-empty — so the
accumulated response text is the concatenation of only the non-empty
content deltas — and a parsed delta whose `content` is the empty string
yields no event at all. -/
theorem yielded_text_nonempty :
    (∀ (parse : List Char → Option ChoiceDelta) (chunks : List (List Char)) (str : String),
      StreamEventRaw.text str ∈ streamChatEvents parse chunks → str ≠ "") ∧
    (∀ (parse : List Char → Option ChoiceDelta) (s : CoreState) (line : List Char)
      (delta : ChoiceDelta),
      s.terminated = false → dataMarker.isPrefixOf line = true →
      line.drop 6 ≠ doneChars → parse (line.drop 6) = some delta →
      delta.content = some "" → (processLine parse s line).2 = []) := by
  constructor
  · intro parse chunks str h
    rw [streamChatEvents, decodeFrom] at h
    rcases List.mem_append.mp h with hm | hm
    · exact runChunks_text_ne parse chunks _ str hm
    · rw [finalFlush] at hm
      split at hm
      · simp at hm
      · exact absurd hm (fun c => flushEvents_no_text _ _ c)
  · intro parse s line delta hterm hmark hdone hp hc
    rw [processLine, if_neg (by simp [hterm]), if_neg (dataMarker_trim_ne line hmark),
      if_pos hmark]
    dsimp only
    rw [if_neg hdone, hp]
    dsimp only
    rw [hc]
    rfl

/-- C10 (witness): in a stream carrying contents `hi` and `""`, the
non-empty fragment is yielded (and is non-empty), while the
empty-content line yields nothing. -/
theorem yielded_text_nonempty_witness :
    (StreamEventRaw.text "hi" ∈ streamChatEvents parseHiW [("data: x\ndata: e\n").data]) ∧
    ("hi" : String) ≠ "" ∧
    (processLine parseHiW { acc := [], terminated := false } (("data: e").data)).2 = [] :=
  ⟨by decide,
   yielded_text_nonempty.1 parseHiW [("data: x\ndata: e\n").data] "hi" (by decide),
   yielded_text_nonempty.2 parseHiW { acc := [], terminated := false } (("data: e").data)
     { content := some "", tool_calls := none } rfl (by decide) (by decide) (by decide) rfl⟩
